import Mathlib

set_option autoImplicit false

namespace Faun

/-!
Verification development for the `faun` structure-of-arrays engine.

The `#[derive(SoA)]` macro (src/soa_macros/src/lib.rs) turns a braced struct
with `k + 1` named fields (it rejects empty field lists) into a columnar
container holding one `Vec` per field.  We embed the generated container
generically: a record shape is a family `ty : Fin (k + 1) → Type` of field
types in declaration order, a row is one value per field, and the container
is one list per field.
-/

/-- One logical row: a value for each of the `k + 1` declared fields. -/
def Row (k : Nat) (ty : Fin (k + 1) → Type) : Type :=
  (i : Fin (k + 1)) → ty i

/-- The generated columnar container: one `Vec` (list) per declared field
(`#( #id: Vec<#ty> )` in the macro output). -/
structure SoA (k : Nat) (ty : Fin (k + 1) → Type) : Type where
  cols : (i : Fin (k + 1)) → List (ty i)

/-- Generated `new()`: every column empty. -/
def SoA.new (k : Nat) (ty : Fin (k + 1) → Type) : SoA k ty :=
  ⟨fun _ => []⟩

/-- Generated `with_capacity(cap)`: `Vec::with_capacity` yields an empty
vector, so the observable contents equal those of `new()`; the reserved
capacity is not observable through the API. -/
def SoA.with_capacity (k : Nat) (ty : Fin (k + 1) → Type) (_cap : Nat) : SoA k ty :=
  ⟨fun _ => []⟩

/-- Generated `len()`: the first declared column's length (the debug asserts
compare every other column's length against it; `SoA.wf` states that the
asserts pass). -/
def SoA.len {k : Nat} {ty : Fin (k + 1) → Type} (s : SoA k ty) : Nat :=
  (s.cols 0).length

/-- Generated `is_empty()`: `self.len() == 0`. -/
def SoA.is_empty {k : Nat} {ty : Fin (k + 1) → Type} (s : SoA k ty) : Bool :=
  s.len == 0

/-- The column-synchronization invariant checked by the `debug_assert_eq!`
calls inside the generated `len()`. -/
def SoA.wf {k : Nat} {ty : Fin (k + 1) → Type} (s : SoA k ty) : Prop :=
  ∀ f, (s.cols f).length = s.len

/-- Generated `push(v)`: append `v`'s value to every column in
field-declaration order, then return `self.len() - 1`. -/
def SoA.push {k : Nat} {ty : Fin (k + 1) → Type} (s : SoA k ty) (v : Row k ty) :
    SoA k ty × Nat :=
  let pushed : SoA k ty := ⟨fun i => s.cols i ++ [v i]⟩
  (pushed, pushed.len - 1)

/-- Generated `view(i)`: builds the per-field reference aggregate
`{ #id: &self.#id[i] }`.  Indexing a column at an out-of-range `i` is a
bounds-check failure in Rust (an index-out-of-range panic), modelled here as
`none`. -/
def SoA.view {k : Nat} {ty : Fin (k + 1) → Type} (s : SoA k ty) (i : Nat) :
    Option (Row k ty) :=
  if h : ∀ f, i < (s.cols f).length then
    some (fun f => (s.cols f).get ⟨i, h f⟩)
  else
    none

/-- Generated `view_mut(i)`: same per-field positions as `view(i)` but with
mutable references; the aliasing discipline is enforced by the borrow checker
and is not visible in a pure model, so the bounds behaviour (the part the
claims are about) is identical to `view`. -/
def SoA.view_mut {k : Nat} {ty : Fin (k + 1) → Type} (s : SoA k ty) (i : Nat) :
    Option (Row k ty) :=
  if h : ∀ f, i < (s.cols f).length then
    some (fun f => (s.cols f).get ⟨i, h f⟩)
  else
    none

/-- A sequence of `push` calls, discarding the returned indices. -/
def SoA.pushMany {k : Nat} {ty : Fin (k + 1) → Type} (s : SoA k ty)
    (rows : List (Row k ty)) : SoA k ty :=
  rows.foldl (fun a v => (a.push v).1) s

theorem SoA.cols_push {k : Nat} {ty : Fin (k + 1) → Type} (s : SoA k ty)
    (v : Row k ty) (f : Fin (k + 1)) :
    ((s.push v).1.cols f) = s.cols f ++ [v f] :=
  rfl

theorem SoA.pushMany_cons {k : Nat} {ty : Fin (k + 1) → Type} (s : SoA k ty)
    (r : Row k ty) (rs : List (Row k ty)) :
    s.pushMany (r :: rs) = (s.push r).1.pushMany rs :=
  rfl

theorem SoA.cols_pushMany {k : Nat} {ty : Fin (k + 1) → Type} (s : SoA k ty)
    (rows : List (Row k ty)) (f : Fin (k + 1)) :
    (s.pushMany rows).cols f = s.cols f ++ rows.map (fun v => v f) := by
  induction rows generalizing s with
  | nil => simp [SoA.pushMany]
  | cons r rs ih =>
      rw [SoA.pushMany_cons, ih, SoA.cols_push]
      simp

theorem SoA.len_pushMany_new {k : Nat} {ty : Fin (k + 1) → Type}
    (rows : List (Row k ty)) :
    ((SoA.new k ty).pushMany rows).len = rows.length := by
  simp [SoA.len, SoA.cols_pushMany, SoA.new]

theorem SoA.wf_pushMany_new {k : Nat} {ty : Fin (k + 1) → Type}
    (rows : List (Row k ty)) :
    ((SoA.new k ty).pushMany rows).wf := by
  intro f
  simp [SoA.len, SoA.cols_pushMany, SoA.new]

theorem SoA.len_push {k : Nat} {ty : Fin (k + 1) → Type} (s : SoA k ty)
    (v : Row k ty) : (s.push v).1.len = s.len + 1 := by
  simp [SoA.len, SoA.push]

/-- C1: for every Column Model created by `new()` or `with_capacity(n)` and
every sequence of `push` calls, `len()` equals the number of pushes, every
column's length equals `len()` (so the `debug_assert_eq!` guards in `len()`
pass), and each `push` grows every column by exactly one element. -/
theorem soa_column_length_invariant (k : Nat) (ty : Fin (k + 1) → Type)
    (cap : Nat) (rows : List (Row k ty)) :
    ((SoA.new k ty).pushMany rows).len = rows.length ∧
    (∀ f, (((SoA.new k ty).pushMany rows).cols f).length =
      ((SoA.new k ty).pushMany rows).len) ∧
    ((SoA.with_capacity k ty cap).pushMany rows).len = rows.length ∧
    (∀ f, (((SoA.with_capacity k ty cap).pushMany rows).cols f).length =
      ((SoA.with_capacity k ty cap).pushMany rows).len) ∧
    (∀ (s : SoA k ty) (v : Row k ty) (f : Fin (k + 1)),
      ((s.push v).1.cols f).length = (s.cols f).length + 1) := by
  refine ⟨SoA.len_pushMany_new rows, SoA.wf_pushMany_new rows, ?_, ?_, ?_⟩
  · exact SoA.len_pushMany_new rows
  · exact SoA.wf_pushMany_new rows
  · intro s v f
    simp [SoA.cols_push]

/-- C5: for a Column Model built by a sequence of pushes and any `i < len()`,
`view(i)` recovers exactly the row passed to the `i`-th push, and that push
returned index `i` (it was `len() - 1` at the time of the push). -/
theorem soa_view_round_trip (k : Nat) (ty : Fin (k + 1) → Type)
    (rows : List (Row k ty)) (i : Nat) (h : i < rows.length) :
    ((SoA.new k ty).pushMany rows).view i = some (rows.get ⟨i, h⟩) ∧
    (((SoA.new k ty).pushMany (rows.take i)).push (rows.get ⟨i, h⟩)).2 = i := by
  constructor
  · have hc : ∀ f, i < ((((SoA.new k ty).pushMany rows)).cols f).length := by
      intro f
      simpa [SoA.cols_pushMany, SoA.new] using h
    rw [SoA.view, dif_pos hc]
    refine congrArg some (funext fun f => ?_)
    have := SoA.cols_pushMany (SoA.new k ty) rows f
    simp only [SoA.new] at this
    simp only [List.get_eq_getElem]
    rw [List.getElem_of_eq (by simpa [SoA.new] using this)]
    simp
  · have hlen : ((SoA.new k ty).pushMany (rows.take i)).len = i := by
      rw [SoA.len_pushMany_new]
      exact List.length_take_of_le (Nat.le_of_lt h)
    simp [SoA.push, SoA.len] at *
    omega

/-!
The `#[derive(SoAStore)]` macro additionally generates a sharded store: a
`Vec` of `CachePadded<SoA>` shards.  `CachePadded` is an alignment wrapper
(`#[repr(align(64))]` in src/soa_runtime/src/lib.rs) whose only API is the
`.0` projection, so the model stores the shards directly.  Shard routing
hashes the designated key field with `DefaultHasher::new()` (a deterministic
digest: fixed-key SipHash from the standard library, external to this
repository) and reduces the 64-bit digest modulo the shard count; the model
abstracts the digest as an arbitrary function `hash` of the key field value.
-/

structure ShardedStore (k : Nat) (ty : Fin (k + 1) → Type) : Type where
  shards : List (SoA k ty)

/-- Generated `with_shards(n, cap_per)`: `n` independent shards, each a
`with_capacity(cap_per)` Column Model. -/
def ShardedStore.with_shards (k : Nat) (ty : Fin (k + 1) → Type)
    (n cap_per : Nat) : ShardedStore k ty :=
  ⟨List.replicate n (SoA.with_capacity k ty cap_per)⟩

def ShardedStore.shard_count {k : Nat} {ty : Fin (k + 1) → Type}
    (s : ShardedStore k ty) : Nat :=
  s.shards.length

/-- Generated `shard(i)`: `&self.shards[i].0`; an out-of-range `i` is a
bounds-check failure (index panic), modelled as `none`. -/
def ShardedStore.shard {k : Nat} {ty : Fin (k + 1) → Type}
    (s : ShardedStore k ty) (i : Nat) : Option (SoA k ty) :=
  s.shards.get? i

/-- Generated `shard_mut(i)`: same bounds behaviour as `shard(i)`. -/
def ShardedStore.shard_mut {k : Nat} {ty : Fin (k + 1) → Type}
    (s : ShardedStore k ty) (i : Nat) : Option (SoA k ty) :=
  s.shards.get? i

/-- Generated `shard_idx_from_key`: digest the key, reduce modulo `n`. -/
def shard_idx_from_key {κ : Type} (hash : κ → Nat) (key : κ) (n : Nat) : Nat :=
  hash key % n

/-- Generated `ShardedStore::add(v)`: compute the shard index from the key
field, push into that shard only, return `(shard_index, row_index)`.  With
zero shards the modulo and the shard indexing are failures in Rust, modelled
as `none`. -/
def ShardedStore.add {k : Nat} {ty : Fin (k + 1) → Type}
    (keyField : Fin (k + 1)) (hash : ty keyField → Nat)
    (s : ShardedStore k ty) (v : Row k ty) :
    Option (ShardedStore k ty × Nat × Nat) :=
  let n := s.shards.length
  if hn : 0 < n then
    let si := shard_idx_from_key hash (v keyField) n
    let sh := s.shards.get ⟨si, Nat.mod_lt _ hn⟩
    let p := sh.push v
    some (⟨s.shards.set si p.1⟩, si, p.2)
  else
    none

theorem ShardedStore.add_eq {k : Nat} {ty : Fin (k + 1) → Type}
    (keyField : Fin (k + 1)) (hash : ty keyField → Nat)
    (t : ShardedStore k ty) (u : Row k ty) (hn : 0 < t.shards.length) :
    t.add keyField hash u = some
      (⟨t.shards.set (shard_idx_from_key hash (u keyField) t.shards.length)
          ((t.shards.get ⟨shard_idx_from_key hash (u keyField) t.shards.length,
            Nat.mod_lt _ hn⟩).push u).1⟩,
        shard_idx_from_key hash (u keyField) t.shards.length,
        ((t.shards.get ⟨shard_idx_from_key hash (u keyField) t.shards.length,
          Nat.mod_lt _ hn⟩).push u).2) := by
  rw [ShardedStore.add, dif_pos hn]

/-- C4: `add(v)` on a sharded store with `n ≥ 1` shards routes to shard
`hash(v.key_field) mod n`, pushes into that shard only (every other shard is
unchanged), returns `(shard_index, row_index)` with `row_index` the pushed
shard's new last index, and a second `add` with an equal key field value on
the same instance reports the same shard index. -/
theorem sharded_add_routing (k : Nat) (ty : Fin (k + 1) → Type)
    (keyField : Fin (k + 1)) (hash : ty keyField → Nat)
    (s : ShardedStore k ty) (v w : Row k ty) (hn : 0 < s.shard_count) :
    ∃ s1 row,
      s.add keyField hash v =
        some (s1, shard_idx_from_key hash (v keyField) s.shard_count, row) ∧
      s1.shard_count = s.shard_count ∧
      (∀ j, j ≠ shard_idx_from_key hash (v keyField) s.shard_count →
        s1.shard j = s.shard j) ∧
      (∃ sh, s.shard (shard_idx_from_key hash (v keyField) s.shard_count) =
          some sh ∧
        s1.shard (shard_idx_from_key hash (v keyField) s.shard_count) =
          some (sh.push v).1 ∧
        row = (sh.push v).2 ∧ row = (sh.push v).1.len - 1) ∧
      (v keyField = w keyField →
        ∃ s2 row2, s1.add keyField hash w =
          some (s2, shard_idx_from_key hash (v keyField) s.shard_count, row2)) := by
  have hn' : 0 < s.shards.length := hn
  have hsi : shard_idx_from_key hash (v keyField) s.shard_count <
      s.shards.length := Nat.mod_lt _ hn'
  refine ⟨⟨s.shards.set (shard_idx_from_key hash (v keyField) s.shard_count)
      ((s.shards.get ⟨_, hsi⟩).push v).1⟩,
    ((s.shards.get ⟨_, hsi⟩).push v).2, ?_, ?_, ?_, ?_, ?_⟩
  · rw [ShardedStore.add, dif_pos hn']
    rfl
  · simp [ShardedStore.shard_count]
  · intro j hj
    simp only [ShardedStore.shard]
    rw [List.get?_set_of_lt' _ _ hsi, if_neg (fun h => hj h.symm)]
  · refine ⟨s.shards.get ⟨_, hsi⟩, ?_, ?_, rfl, rfl⟩
    · simp [ShardedStore.shard, List.get?_eq_get hsi]
    · simp only [ShardedStore.shard]
      rw [List.get?_set_of_lt' _ _ hsi, if_pos rfl]
  · intro hkey
    set s1 : ShardedStore k ty := ⟨s.shards.set
        (shard_idx_from_key hash (v keyField) s.shard_count)
        ((s.shards.get ⟨_, hsi⟩).push v).1⟩ with hs1
    have hlen : s1.shards.length = s.shards.length := by
      simp [hs1]
    have hn2 : 0 < s1.shards.length := by
      rw [hlen]
      exact hn'
    have hsi2 : shard_idx_from_key hash (w keyField) s1.shards.length =
        shard_idx_from_key hash (v keyField) s.shard_count := by
      rw [hlen, ← hkey]
      rfl
    have h2 := ShardedStore.add_eq keyField hash s1 w hn2
    simp only [hsi2] at h2
    exact ⟨_, _, h2⟩

/-- C8: `view(i)` and `view_mut(i)` succeed exactly for `i < len()` and fail
(bounds-check failure, never a clamped index) for `i ≥ len()`; `shard(i)` and
`shard_mut(i)` succeed exactly for `i < shard_count` and fail for
`i ≥ shard_count`. -/
theorem bounds_checked_indexing (k : Nat) (ty : Fin (k + 1) → Type)
    (s : SoA k ty) (hwf : s.wf) (i : Nat) (st : ShardedStore k ty) (j : Nat) :
    ((s.view i).isSome ↔ i < s.len) ∧
    ((s.view_mut i).isSome ↔ i < s.len) ∧
    (s.len ≤ i → s.view i = none ∧ s.view_mut i = none) ∧
    ((st.shard j).isSome ↔ j < st.shard_count) ∧
    ((st.shard_mut j).isSome ↔ j < st.shard_count) ∧
    (st.shard_count ≤ j → st.shard j = none ∧ st.shard_mut j = none) := by
  have hc : (∀ f, i < (s.cols f).length) ↔ i < s.len := by
    constructor
    · intro hh
      exact hh 0
    · intro hh f
      rw [hwf f]
      exact hh
  have hview : (s.view i).isSome ↔ i < s.len := by
    rw [SoA.view]
    by_cases hcond : ∀ f, i < (s.cols f).length
    · rw [dif_pos hcond]
      simp [hc.mp hcond]
    · rw [dif_neg hcond]
      simp only [Option.isSome_none, Bool.false_eq_true, false_iff]
      exact fun hlt => hcond (hc.mpr hlt)
  have hviewm : (s.view_mut i).isSome ↔ i < s.len := by
    rw [SoA.view_mut]
    by_cases hcond : ∀ f, i < (s.cols f).length
    · rw [dif_pos hcond]
      simp [hc.mp hcond]
    · rw [dif_neg hcond]
      simp only [Option.isSome_none, Bool.false_eq_true, false_iff]
      exact fun hlt => hcond (hc.mpr hlt)
  have hshard : (st.shard j).isSome ↔ j < st.shard_count := by
    rw [ShardedStore.shard]
    constructor
    · intro hh
      by_contra hge
      rw [List.get?_eq_none.mpr (Nat.le_of_not_lt hge)] at hh
      simp at hh
    · intro hlt
      rw [List.get?_eq_get hlt]
      rfl
  refine ⟨hview, hviewm, ?_, hshard, hshard, ?_⟩
  · intro hge
    constructor
    · cases hv : s.view i with
      | none => rfl
      | some r =>
          have := hview.mp (by rw [hv]; rfl)
          omega
    · cases hv : s.view_mut i with
      | none => rfl
      | some r =>
          have := hviewm.mp (by rw [hv]; rfl)
          omega
  · intro hge
    constructor
    · exact List.get?_eq_none.mpr hge
    · exact List.get?_eq_none.mpr hge

/-!
The `#[derive(SoAStore)]` macro also generates a `Store` holding
`inner: Arc<SoA>`.  `Clone` copies the handle and bumps the reference count;
`add` and `kernel_mut` call `Arc::make_mut`, which mutates in place when the
handle is the sole owner and otherwise deep-copies the payload into a fresh
uniquely-owned allocation first.  We model the `Arc` world as an explicit
heap of `(value, strong count)` cells addressed by index; a store handle is a
cell address.  Cells are never deallocated in the model (no handle in the
claims is dropped).
-/

universe u

structure ArcHeap (α : Type u) : Type u where
  cells : List (α × Nat)

def ArcHeap.value? {α : Type u} (h : ArcHeap α) (p : Nat) : Option α :=
  (h.cells.get? p).map Prod.fst

def ArcHeap.strong? {α : Type u} (h : ArcHeap α) (p : Nat) : Option Nat :=
  (h.cells.get? p).map Prod.snd

/-- `Store::clone`: copy the handle, incrementing the strong count. -/
def ArcHeap.clone {α : Type u} (h : ArcHeap α) (p : Nat) : ArcHeap α :=
  match h.cells.get? p with
  | some c => ⟨h.cells.set p (c.1, c.2 + 1)⟩
  | none => h

/-- `Arc::make_mut`: if the handle is the sole owner, mutate in place;
otherwise deep-copy the payload into a fresh cell with strong count 1 and
release the old reference.  Returns the heap and the (possibly new) address
the handle points at afterwards. -/
def ArcHeap.makeMut {α : Type u} (h : ArcHeap α) (p : Nat) : ArcHeap α × Nat :=
  match h.cells.get? p with
  | none => (h, p)
  | some c =>
      if c.2 = 1 then (h, p)
      else (⟨(h.cells.set p (c.1, c.2 - 1)).concat (c.1, 1)⟩, h.cells.length)

/-- Overwrite the payload of cell `p` with `f` applied to it. -/
def ArcHeap.modifyAt {α : Type u} (h : ArcHeap α) (p : Nat) (f : α → α) :
    ArcHeap α :=
  match h.cells.get? p with
  | none => h
  | some c => ⟨h.cells.set p (f c.1, c.2)⟩

/-- The common shape of the generated `add` and `kernel_mut`:
`Arc::make_mut(&mut self.inner)` then mutate the now-exclusive payload. -/
def ArcHeap.mutateAt {α : Type u} (h : ArcHeap α) (p : Nat) (f : α → α) :
    ArcHeap α × Nat :=
  let m := h.makeMut p
  (m.1.modifyAt m.2 f, m.2)

/-- Generated `Store::add(v)`: `make_mut` then `push`, returning the pushed
index. -/
def storeAdd {k : Nat} {ty : Fin (k + 1) → Type} (h : ArcHeap (SoA k ty))
    (p : Nat) (v : Row k ty) : ArcHeap (SoA k ty) × Nat × Nat :=
  let m := h.makeMut p
  let idx := ((m.1.value? m.2).map (fun s => (s.push v).2)).getD 0
  (m.1.modifyAt m.2 (fun s => (s.push v).1), m.2, idx)

/-- Generated `Store::kernel()`: shared read access to the snapshot. -/
def storeKernel {k : Nat} {ty : Fin (k + 1) → Type} (h : ArcHeap (SoA k ty))
    (p : Nat) : Option (SoA k ty) :=
  h.value? p

/-- Generated `Store::kernel_mut()` followed by an arbitrary mutation `f` of
the exclusively owned Column Model. -/
def storeKernelMut {k : Nat} {ty : Fin (k + 1) → Type}
    (h : ArcHeap (SoA k ty)) (p : Nat) (f : SoA k ty → SoA k ty) :
    ArcHeap (SoA k ty) × Nat :=
  h.mutateAt p f

/-- One mutation applied through a store handle: either `add(v)` or a
`kernel_mut` edit. -/
inductive StoreOp (k : Nat) (ty : Fin (k + 1) → Type) : Type where
  | add (v : Row k ty)
  | mutate (f : SoA k ty → SoA k ty)

def storeStep {k : Nat} {ty : Fin (k + 1) → Type}
    (st : ArcHeap (SoA k ty) × Nat) (op : StoreOp k ty) :
    ArcHeap (SoA k ty) × Nat :=
  match op with
  | .add v =>
      let r := storeAdd st.1 st.2 v
      (r.1, r.2.1)
  | .mutate f => storeKernelMut st.1 st.2 f

def storeRun {k : Nat} {ty : Fin (k + 1) → Type}
    (st : ArcHeap (SoA k ty) × Nat) (ops : List (StoreOp k ty)) :
    ArcHeap (SoA k ty) × Nat :=
  ops.foldl storeStep st

theorem ArcHeap.length_modifyAt {α : Type u} (h : ArcHeap α) (p : Nat)
    (f : α → α) : (h.modifyAt p f).cells.length = h.cells.length := by
  rw [ArcHeap.modifyAt]
  cases h.cells.get? p <;> simp

theorem ArcHeap.value?_modifyAt_ne {α : Type u} (g : ArcHeap α) (t p : Nat)
    (f : α → α) (hne : t ≠ p) : (g.modifyAt t f).value? p = g.value? p := by
  rw [ArcHeap.modifyAt]
  cases hq : g.cells.get? t with
  | none => rfl
  | some c =>
      obtain ⟨htlt, -⟩ := List.get?_eq_some.mp hq
      simp only [ArcHeap.value?]
      rw [List.get?_set_of_lt' _ _ htlt, if_neg hne]

/-- Frame property of `Arc::make_mut`: a cell `p` that is valid and, when
the handle being made mutable aliases it, shared (strong count at least 2 —
the original handle plus the mutating one), keeps its payload, and the
handle no longer aliases `p` afterwards. -/
theorem ArcHeap.makeMut_frame {α : Type u} (h : ArcHeap α) (p q : Nat)
    (v0 : α)
    (hlt : p < h.cells.length)
    (hv : h.value? p = some v0)
    (hsh : q = p → ∃ n, h.strong? p = some n ∧ 2 ≤ n) :
    p < (h.makeMut q).1.cells.length ∧
    (h.makeMut q).1.value? p = some v0 ∧ (h.makeMut q).2 ≠ p := by
  obtain ⟨cp, hcp⟩ : ∃ cp, h.cells.get? p = some cp :=
    ⟨_, List.get?_eq_get hlt⟩
  have hcp1 : cp.1 = v0 := by
    rw [ArcHeap.value?, hcp] at hv
    simpa using hv
  by_cases hqp : q = p
  · subst hqp
    obtain ⟨n, hn, hn2⟩ := hsh rfl
    rw [ArcHeap.strong?, hcp] at hn
    have hcpn : cp.2 = n := by simpa using hn
    have hne1 : ¬ cp.2 = 1 := by omega
    have hmk : h.makeMut q =
        (⟨(h.cells.set q (cp.1, cp.2 - 1)).concat (cp.1, 1)⟩,
          h.cells.length) := by
      rw [ArcHeap.makeMut, hcp]
      simp [hne1]
    rw [hmk]
    refine ⟨by simpa using Nat.lt_succ_of_lt hlt, ?_, by omega⟩
    simp only [ArcHeap.value?, List.concat_eq_append]
    rw [List.get?_append (by simpa using hlt)]
    rw [List.get?_set_of_lt' _ _ hlt, if_pos rfl]
    simp [hcp1]
  · cases hq : h.cells.get? q with
    | none =>
        have hmk : h.makeMut q = (h, q) := by
          rw [ArcHeap.makeMut, hq]
        rw [hmk]
        exact ⟨hlt, hv, hqp⟩
    | some cq =>
        obtain ⟨hqlt, -⟩ := List.get?_eq_some.mp hq
        by_cases hone : cq.2 = 1
        · have hmk : h.makeMut q = (h, q) := by
            rw [ArcHeap.makeMut, hq]
            simp [hone]
          rw [hmk]
          exact ⟨hlt, hv, hqp⟩
        · have hmk : h.makeMut q =
              (⟨(h.cells.set q (cq.1, cq.2 - 1)).concat (cq.1, 1)⟩,
                h.cells.length) := by
            rw [ArcHeap.makeMut, hq]
            simp [hone]
          rw [hmk]
          refine ⟨by simpa using Nat.lt_succ_of_lt hlt, ?_, by omega⟩
          simp only [ArcHeap.value?, List.concat_eq_append]
          rw [List.get?_append (by simpa using hlt)]
          rw [List.get?_set_of_lt' _ _ hqlt, if_neg hqp]
          rw [hcp]
          simp [hcp1]

/-- Frame property of `make_mut`-then-mutate, the shape of every mutation a
`Store` handle performs. -/
theorem ArcHeap.mutateAt_frame {α : Type u} (h : ArcHeap α) (p q : Nat)
    (v0 : α) (f : α → α)
    (hlt : p < h.cells.length)
    (hv : h.value? p = some v0)
    (hsh : q = p → ∃ n, h.strong? p = some n ∧ 2 ≤ n) :
    p < (h.mutateAt q f).1.cells.length ∧
    (h.mutateAt q f).1.value? p = some v0 ∧ (h.mutateAt q f).2 ≠ p := by
  obtain ⟨h1, h2, h3⟩ := ArcHeap.makeMut_frame h p q v0 hlt hv hsh
  refine ⟨?_, ?_, h3⟩
  · rw [show (h.mutateAt q f).1 = ((h.makeMut q).1.modifyAt (h.makeMut q).2 f)
      from rfl]
    rw [ArcHeap.length_modifyAt]
    exact h1
  · rw [show (h.mutateAt q f).1 = ((h.makeMut q).1.modifyAt (h.makeMut q).2 f)
      from rfl]
    rw [ArcHeap.value?_modifyAt_ne _ _ _ _ h3]
    exact h2

theorem ArcHeap.makeMut_value_at_target {α : Type u} (g : ArcHeap α)
    (q : Nat) (c : α × Nat) (hq : g.cells.get? q = some c) :
    (g.makeMut q).1.cells.get? (g.makeMut q).2 = some (c.1, 1) := by
  obtain ⟨c1, c2⟩ := c
  obtain ⟨hqlt, -⟩ := List.get?_eq_some.mp hq
  by_cases hone : c2 = 1
  · have hmk : g.makeMut q = (g, q) := by
      rw [ArcHeap.makeMut, hq]
      simp [hone]
    rw [hmk]
    show g.cells.get? q = some (c1, 1)
    rw [hq, hone]
  · have hmk : g.makeMut q =
        (⟨(g.cells.set q (c1, c2 - 1)).concat (c1, 1)⟩, g.cells.length) := by
      rw [ArcHeap.makeMut, hq]
      simp [hone]
    rw [hmk]
    simp only [List.concat_eq_append]
    rw [show g.cells.length = (g.cells.set q (c1, c2 - 1)).length by simp]
    exact List.get?_concat_length _ _

/-- Behaviour of one `Store::add` on the mutating handle's own model: the
pushed model becomes the handle's kernel and the returned value is the push
result index, which is the new length minus one. -/
theorem storeAdd_spec {k : Nat} {ty : Fin (k + 1) → Type}
    (g : ArcHeap (SoA k ty)) (q : Nat) (s0 : SoA k ty) (m : Nat)
    (v : Row k ty) (hq : g.cells.get? q = some (s0, m)) :
    (storeAdd g q v).2.2 = (s0.push v).2 ∧
    (storeAdd g q v).1.value? (storeAdd g q v).2.1 = some (s0.push v).1 := by
  have htgt := ArcHeap.makeMut_value_at_target g q (s0, m) hq
  obtain ⟨hlt2, -⟩ := List.get?_eq_some.mp htgt
  constructor
  · show ((((g.makeMut q).1.value? (g.makeMut q).2).map
      (fun s => (s.push v).2)).getD 0) = _
    rw [ArcHeap.value?, htgt]
    rfl
  · show ((g.makeMut q).1.modifyAt (g.makeMut q).2
      (fun s => (s.push v).1)).value? (g.makeMut q).2 = _
    rw [ArcHeap.modifyAt, htgt]
    simp only [ArcHeap.value?]
    rw [List.get?_set_of_lt' _ _ hlt2, if_pos rfl]
    rfl

/-- Invariant carried by the original handle's cell `p` while mutations run
through the cloned handle: `p` stays valid, keeps its snapshot, and whenever
the mutating handle still aliases `p` the cell is shared. -/
def cowInv {k : Nat} {ty : Fin (k + 1) → Type} (p : Nat) (v0 : SoA k ty)
    (st : ArcHeap (SoA k ty) × Nat) : Prop :=
  p < st.1.cells.length ∧ st.1.value? p = some v0 ∧
    (st.2 = p → ∃ n, st.1.strong? p = some n ∧ 2 ≤ n)

theorem cowInv_step {k : Nat} {ty : Fin (k + 1) → Type} (p : Nat)
    (v0 : SoA k ty) (st : ArcHeap (SoA k ty) × Nat) (op : StoreOp k ty)
    (h : cowInv p v0 st) : cowInv p v0 (storeStep st op) := by
  obtain ⟨h1, h2, h3⟩ := h
  cases op with
  | add v =>
      have hf := ArcHeap.mutateAt_frame st.1 p st.2 v0
        (fun s => (s.push v).1) h1 h2 h3
      exact ⟨hf.1, hf.2.1, fun hc => absurd hc hf.2.2⟩
  | mutate f =>
      have hf := ArcHeap.mutateAt_frame st.1 p st.2 v0 f h1 h2 h3
      exact ⟨hf.1, hf.2.1, fun hc => absurd hc hf.2.2⟩

theorem cowInv_run {k : Nat} {ty : Fin (k + 1) → Type} (p : Nat)
    (v0 : SoA k ty) (ops : List (StoreOp k ty))
    (st : ArcHeap (SoA k ty) × Nat) (h : cowInv p v0 st) :
    cowInv p v0 (storeRun st ops) := by
  induction ops generalizing st with
  | nil => exact h
  | cons op rest ih => exact ih _ (cowInv_step p v0 st op h)

/-- C3: clone a Store handle (`S1 = S0.clone()`), then apply any sequence of
`add` / `kernel_mut` mutations through the clone only: the original handle's
`kernel()` still returns the pre-clone snapshot; moreover each `add` returns
the new row index of the mutated handle's own model (the model it pushed
into grows by one and the returned index is its new length minus one). -/
theorem store_cow_isolation (k : Nat) (ty : Fin (k + 1) → Type)
    (h : ArcHeap (SoA k ty)) (p : Nat) (v0 : SoA k ty) (n : Nat)
    (hcell : h.cells.get? p = some (v0, n)) (hn : 1 ≤ n)
    (ops : List (StoreOp k ty)) :
    storeKernel (storeRun (h.clone p, p) ops).1 p = some v0 ∧
    (∀ (g : ArcHeap (SoA k ty)) (q m : Nat) (s0 : SoA k ty) (v : Row k ty),
      g.cells.get? q = some (s0, m) →
      (storeAdd g q v).2.2 = (s0.push v).2 ∧
      (storeAdd g q v).1.value? (storeAdd g q v).2.1 = some (s0.push v).1 ∧
      (s0.push v).2 = (s0.push v).1.len - 1 ∧
      (s0.push v).1.len = s0.len + 1) := by
  constructor
  · obtain ⟨hlt, -⟩ := List.get?_eq_some.mp hcell
    have hclone : h.clone p = ⟨h.cells.set p (v0, n + 1)⟩ := by
      rw [ArcHeap.clone, hcell]
    have hinv0 : cowInv p v0 (h.clone p, p) := by
      refine ⟨?_, ?_, ?_⟩
      · rw [hclone]
        simpa using hlt
      · rw [hclone]
        simp only [ArcHeap.value?]
        rw [List.get?_set_of_lt' _ _ hlt, if_pos rfl]
        rfl
      · intro _
        refine ⟨n + 1, ?_, by omega⟩
        rw [hclone]
        simp only [ArcHeap.strong?]
        rw [List.get?_set_of_lt' _ _ hlt, if_pos rfl]
        rfl
    exact (cowInv_run p v0 ops _ hinv0).2.1
  · intro g q m s0 v hq
    obtain ⟨h1, h2⟩ := storeAdd_spec g q s0 m v hq
    exact ⟨h1, h2, rfl, SoA.len_push s0 v⟩

/-!
Persistence layer (src/soa_persistence) and its concrete instantiation for
the example `Order` record (src/example_app/src/lib.rs and
src/example_app/src/persistence.rs).

`f64` fields cross the persistence boundary as opaque 64-bit payloads: they
are only ever cloned into a `Float64Array` and copied back, never computed
with, so the model carries them as bit patterns.
-/

/-- Error taxonomy of `PersistenceError` (src/soa_persistence/src/errors.rs,
plus the `TaskJoin` kind used by the Parquet backend). -/
inductive PersistenceError : Type where
  | arrowError (msg : String)
  | schemaMismatch (expected found : String)
  | columnNotFound (column_name : String)
  | typeConversion (message : String)
  | io (msg : String)
  | serialization (msg : String)
  | taskJoin (msg : String)
deriving DecidableEq

/-- An `f64` payload, carried bit-faithfully through persistence. -/
structure F64 : Type where
  bits : Nat
deriving DecidableEq

/-- `OrderStatus` (src/example_app/src/lib.rs), variants in declaration
order. -/
inductive OrderStatus : Type where
  | Pending
  | Processing
  | Shipped
  | Delivered
deriving DecidableEq

/-- `PaymentMethod` (src/example_app/src/lib.rs), variants in declaration
order. -/
inductive PaymentMethod : Type where
  | CreditCard
  | PayPal
  | BankTransfer
deriving DecidableEq

/-- The declared variants of `OrderStatus` in declaration order. -/
def OrderStatus.variants : List OrderStatus :=
  [.Pending, .Processing, .Shipped, .Delivered]

/-- The declared variants of `PaymentMethod` in declaration order. -/
def PaymentMethod.variants : List PaymentMethod :=
  [.CreditCard, .PayPal, .BankTransfer]

/-- `impl From<OrderStatus> for u8`: positional codes. -/
def OrderStatus.toU8 : OrderStatus → Nat
  | .Pending => 0
  | .Processing => 1
  | .Shipped => 2
  | .Delivered => 3

/-- `impl TryFrom<u8> for OrderStatus`: codes `0..=3` decode positionally,
anything else is an error. -/
def OrderStatus.tryFromU8 : Nat → Except String OrderStatus
  | 0 => .ok .Pending
  | 1 => .ok .Processing
  | 2 => .ok .Shipped
  | 3 => .ok .Delivered
  | c => .error ("Invalid OrderStatus value: " ++ toString c)

/-- `impl From<PaymentMethod> for u8`: positional codes. -/
def PaymentMethod.toU8 : PaymentMethod → Nat
  | .CreditCard => 0
  | .PayPal => 1
  | .BankTransfer => 2

/-- `impl TryFrom<u8> for PaymentMethod`: codes `0..=2` decode positionally,
anything else is an error. -/
def PaymentMethod.tryFromU8 : Nat → Except String PaymentMethod
  | 0 => .ok .CreditCard
  | 1 => .ok .PayPal
  | 2 => .ok .BankTransfer
  | c => .error ("Invalid PaymentMethod value: " ++ toString c)

/-- The status decoder used in `OrderSoA::from_record_batch`: `TryFrom`
wrapped into a `TypeConversion` persistence error. -/
def decodeStatus (c : Nat) : Except PersistenceError OrderStatus :=
  (OrderStatus.tryFromU8 c).mapError PersistenceError.typeConversion

/-- The payment-method decoder used in `OrderSoA::from_record_batch`. -/
def decodePayment (c : Nat) : Except PersistenceError PaymentMethod :=
  (PaymentMethod.tryFromU8 c).mapError PersistenceError.typeConversion

/-- The macro-generated `OrderSoA` container (see
src/example_app/expanded.rs): one column per `Order` field in declaration
order. -/
structure OrderSoA : Type where
  order_id : List Nat
  customer_id : List Nat
  product_id : List Nat
  quantity : List Nat
  unit_price : List F64
  total_amount : List F64
  status : List OrderStatus
  payment_method : List PaymentMethod
  order_timestamp : List Nat
  shipping_address_hash : List Nat
deriving DecidableEq

/-- Generated `OrderSoA::new()`: all columns empty. -/
def OrderSoA.new : OrderSoA :=
  ⟨[], [], [], [], [], [], [], [], [], []⟩

/-- Generated `OrderSoA::len()`: first (order_id) column length. -/
def OrderSoA.len (s : OrderSoA) : Nat :=
  s.order_id.length

/-- The column-length invariant for `OrderSoA`. -/
def OrderSoA.wf (s : OrderSoA) : Prop :=
  s.customer_id.length = s.order_id.length ∧
  s.product_id.length = s.order_id.length ∧
  s.quantity.length = s.order_id.length ∧
  s.unit_price.length = s.order_id.length ∧
  s.total_amount.length = s.order_id.length ∧
  s.status.length = s.order_id.length ∧
  s.payment_method.length = s.order_id.length ∧
  s.order_timestamp.length = s.order_id.length ∧
  s.shipping_address_hash.length = s.order_id.length

instance (s : OrderSoA) : Decidable s.wf := by
  rw [OrderSoA.wf]
  infer_instance

/-- Row-wise concatenation of two `OrderSoA` contents (the observable result
of concatenating their serialized batches). -/
def OrderSoA.append (a b : OrderSoA) : OrderSoA :=
  ⟨a.order_id ++ b.order_id,
   a.customer_id ++ b.customer_id,
   a.product_id ++ b.product_id,
   a.quantity ++ b.quantity,
   a.unit_price ++ b.unit_price,
   a.total_amount ++ b.total_amount,
   a.status ++ b.status,
   a.payment_method ++ b.payment_method,
   a.order_timestamp ++ b.order_timestamp,
   a.shipping_address_hash ++ b.shipping_address_hash⟩

/-- An Arrow `RecordBatch` for the `Order` schema
(src/example_app/src/persistence.rs): ten primitive columns, the two enum
columns stored as unsigned 8-bit codes. -/
structure RecordBatch : Type where
  order_id : List Nat
  customer_id : List Nat
  product_id : List Nat
  quantity : List Nat
  unit_price : List F64
  total_amount : List F64
  status : List Nat
  payment_method : List Nat
  order_timestamp : List Nat
  shipping_address_hash : List Nat
deriving DecidableEq

/-- The validation `RecordBatch::try_new` performs: all columns must have
the same length. -/
def RecordBatch.sameLen (b : RecordBatch) : Prop :=
  b.customer_id.length = b.order_id.length ∧
  b.product_id.length = b.order_id.length ∧
  b.quantity.length = b.order_id.length ∧
  b.unit_price.length = b.order_id.length ∧
  b.total_amount.length = b.order_id.length ∧
  b.status.length = b.order_id.length ∧
  b.payment_method.length = b.order_id.length ∧
  b.order_timestamp.length = b.order_id.length ∧
  b.shipping_address_hash.length = b.order_id.length

instance (b : RecordBatch) : Decidable b.sameLen := by
  rw [RecordBatch.sameLen]
  infer_instance

/-- `RecordBatch::num_rows()`: the common row count (the first column's
length; `try_new` validated that all columns agree). -/
def RecordBatch.num_rows (b : RecordBatch) : Nat :=
  b.order_id.length

/-- Column-wise concatenation of two batches with the same schema (one step
of `arrow::compute::concat_batches`). -/
def RecordBatch.appendB (a b : RecordBatch) : RecordBatch :=
  ⟨a.order_id ++ b.order_id,
   a.customer_id ++ b.customer_id,
   a.product_id ++ b.product_id,
   a.quantity ++ b.quantity,
   a.unit_price ++ b.unit_price,
   a.total_amount ++ b.total_amount,
   a.status ++ b.status,
   a.payment_method ++ b.payment_method,
   a.order_timestamp ++ b.order_timestamp,
   a.shipping_address_hash ++ b.shipping_address_hash⟩

/-- The all-empty batch (concatenation unit). -/
def RecordBatch.emptyB : RecordBatch :=
  ⟨[], [], [], [], [], [], [], [], [], []⟩

/-- `arrow::compute::concat_batches`: column-wise concatenation of a list of
same-schema batches, in list order. -/
def concatBatches (bs : List RecordBatch) : RecordBatch :=
  bs.foldl RecordBatch.appendB RecordBatch.emptyB

/-- The columns `OrderSoA::to_record_batch` builds (the `let`-bound arrays
before `RecordBatch::try_new`): every primitive column cloned as-is, the two
enum columns encoded positionally to u8. -/
def encBatch (s : OrderSoA) : RecordBatch :=
  ⟨s.order_id,
   s.customer_id,
   s.product_id,
   s.quantity,
   s.unit_price,
   s.total_amount,
   s.status.map OrderStatus.toU8,
   s.payment_method.map PaymentMethod.toU8,
   s.order_timestamp,
   s.shipping_address_hash⟩

/-- `OrderSoA::to_record_batch`: build the arrays, then
`RecordBatch::try_new`, which validates that all columns have the same
length. -/
def OrderSoA.to_record_batch (s : OrderSoA) :
    Except PersistenceError RecordBatch :=
  if (encBatch s).sameLen then .ok (encBatch s)
  else .error (.arrowError "all columns in a record batch must have the same length")

/-- The enum-decoding loop of `OrderSoA::from_record_batch`: for each index
`i` below the status column's length, decode `status[i]` then
`payment_method[i]`; reading `payment_method[i]` past its end is an
out-of-bounds failure. -/
def decodeOrderEnums : List Nat → List Nat →
    Except PersistenceError (List OrderStatus × List PaymentMethod)
  | [], _ => .ok ([], [])
  | _ :: _, [] =>
      .error (.typeConversion "payment_method column shorter than status column")
  | sc :: scs, pc :: pcs => do
      let s ← decodeStatus sc
      let p ← decodePayment pc
      let rest ← decodeOrderEnums scs pcs
      .ok (s :: rest.1, p :: rest.2)

/-- `OrderSoA::from_record_batch`: copy the primitive columns back and decode
the two enum columns. -/
def OrderSoA.from_record_batch (b : RecordBatch) :
    Except PersistenceError OrderSoA := do
  let enums ← decodeOrderEnums b.status b.payment_method
  .ok ⟨b.order_id,
       b.customer_id,
       b.product_id,
       b.quantity,
       b.unit_price,
       b.total_amount,
       enums.1,
       enums.2,
       b.order_timestamp,
       b.shipping_address_hash⟩

@[simp]
theorem exBind_ok {ε α β : Type} (a : α) (f : α → Except ε β) :
    (Except.ok a >>= f) = f a :=
  rfl

@[simp]
theorem exBind_error {ε α β : Type} (e : ε) (f : α → Except ε β) :
    ((Except.error e : Except ε α) >>= f) = Except.error e :=
  rfl

@[simp]
theorem exceptBind_ok {ε α β : Type} (a : α) (f : α → Except ε β) :
    Except.bind (Except.ok a) f = f a :=
  rfl

@[simp]
theorem exceptBind_error {ε α β : Type} (e : ε) (f : α → Except ε β) :
    Except.bind (Except.error e : Except ε α) f = Except.error e :=
  rfl

/-- State of the in-memory `ArrowPersistence`: the ordered list of stored
record batches behind the adapter's `RwLock` (the lock serializes writers;
the operations themselves are modelled functionally). -/
abbrev ArrowState := List RecordBatch

/-- `ArrowPersistence::save`: serialize, then clear the batch list and store
the single new batch.  A serialization failure happens before the list is
touched, so the caller's state is unchanged on error. -/
def arrowSave (st : ArrowState) (d : OrderSoA) :
    Except PersistenceError ArrowState := do
  let b ← d.to_record_batch
  let _ := st
  .ok [b]

/-- `ArrowPersistence::merge_batches`: `none` when nothing is stored, the
single batch unchanged, or the concatenation of all batches in insertion
order. -/
def mergeBatches : ArrowState → Option RecordBatch
  | [] => none
  | [b] => some b
  | bs => some (concatBatches bs)

/-- `ArrowPersistence::load`: merge all stored batches and decode. -/
def arrowLoad (st : ArrowState) : Except PersistenceError (Option OrderSoA) :=
  match mergeBatches st with
  | none => .ok none
  | some b => do
      let d ← OrderSoA.from_record_batch b
      .ok (some d)

/-- `ArrowPersistence::append`: serialize and push one more batch. -/
def arrowAppend (st : ArrowState) (d : OrderSoA) :
    Except PersistenceError ArrowState := do
  let b ← d.to_record_batch
  .ok (st ++ [b])

/-- `ArrowPersistence::count`: sum of `num_rows` over the stored batches. -/
def arrowCount (st : ArrowState) : Except PersistenceError Nat :=
  .ok ((st.map RecordBatch.num_rows).sum)

/-- `ArrowPersistence::clear`: drop all stored batches. -/
def arrowClear (_st : ArrowState) : Except PersistenceError ArrowState :=
  .ok []

/-- Default `SoAPersistence::is_empty`: `count() == 0`. -/
def arrowIsEmpty (st : ArrowState) : Except PersistenceError Bool := do
  let c ← arrowCount st
  .ok (c == 0)

/-- State of the on-disk `ParquetPersistence` dataset: `none` when
`data.parquet` does not exist, otherwise the record batches the file decodes
to. -/
abbrev ParquetFile := Option (List RecordBatch)

/-- `ParquetPersistence::load`: absent file loads nothing; otherwise read
all batches, concatenate (a single batch is taken as-is) and decode. -/
def parquetLoad (fs : ParquetFile) : Except PersistenceError (Option OrderSoA) :=
  match fs with
  | none => .ok none
  | some bs =>
      if bs.isEmpty then .ok none
      else
        let combined :=
          match bs with
          | [b] => b
          | l => concatBatches l
        do
          let d ← OrderSoA.from_record_batch combined
          .ok (some d)

/-- `ParquetPersistence::save`: serialize, then `File::create` (truncating
any existing `data.parquet`) and write the single batch. -/
def parquetSave (fs : ParquetFile) (d : OrderSoA) :
    Except PersistenceError ParquetFile := do
  let b ← d.to_record_batch
  let _ := fs
  .ok (some [b])

/-- The on-disk states a `ParquetPersistence::save` passes through, in
order: after `File::create` truncates `data.parquet` the file exists with no
readable content, and only after `write` + `close` does it hold the new
batch. -/
def parquetSaveTrace (b : RecordBatch) : List ParquetFile :=
  [some [], some [b]]

/-- `ParquetPersistence::append`: reload the existing file, serialize the
new data, concatenate (new rows after existing rows) and rewrite the file
with the combined batch. -/
def parquetAppend (fs : ParquetFile) (d : OrderSoA) :
    Except PersistenceError ParquetFile := do
  let existing ← parquetLoad fs
  let new_batch ← d.to_record_batch
  match existing with
  | some existing_data => do
      let existing_batch ← existing_data.to_record_batch
      .ok (some [existing_batch.appendB new_batch])
  | none => .ok (some [new_batch])

/-- `ParquetPersistence::count`: absent file counts zero; otherwise the
footer metadata's total row count, with no row data decoded. -/
def parquetCount (fs : ParquetFile) : Except PersistenceError Nat :=
  match fs with
  | none => .ok 0
  | some bs => .ok ((bs.map RecordBatch.num_rows).sum)

theorem decodeStatus_toU8 (v : OrderStatus) : decodeStatus v.toU8 = .ok v := by
  cases v <;> rfl

theorem decodePayment_toU8 (v : PaymentMethod) : decodePayment v.toU8 = .ok v := by
  cases v <;> rfl

theorem decodeOrderEnums_encode (ss : List OrderStatus)
    (ps : List PaymentMethod) (h : ss.length = ps.length) :
    decodeOrderEnums (ss.map OrderStatus.toU8) (ps.map PaymentMethod.toU8) =
      .ok (ss, ps) := by
  induction ss generalizing ps with
  | nil =>
      cases ps with
      | nil => rfl
      | cons p ps => simp at h
  | cons s ss ih =>
      cases ps with
      | nil => simp at h
      | cons p ps =>
          have ih' := ih ps (by simpa using h)
          simp only [List.map_cons, decodeOrderEnums, decodeStatus_toU8,
            decodePayment_toU8, ih']
          rfl

theorem encBatch_sameLen (s : OrderSoA) (hwf : s.wf) :
    (encBatch s).sameLen := by
  obtain ⟨h1, h2, h3, h4, h5, h6, h7, h8, h9⟩ := hwf
  simp [encBatch, RecordBatch.sameLen, h1, h2, h3, h4, h5, h6, h7, h8, h9]

theorem to_record_batch_eq (s : OrderSoA) (hwf : s.wf) :
    s.to_record_batch = .ok (encBatch s) := by
  rw [OrderSoA.to_record_batch, if_pos (encBatch_sameLen s hwf)]

theorem from_encBatch (s : OrderSoA)
    (hst : s.status.length = s.payment_method.length) :
    OrderSoA.from_record_batch (encBatch s) = .ok s := by
  simp only [OrderSoA.from_record_batch, encBatch]
  rw [decodeOrderEnums_encode _ _ hst]
  rfl

theorem OrderSoA.wf_status_eq_payment (s : OrderSoA) (hwf : s.wf) :
    s.status.length = s.payment_method.length := by
  obtain ⟨-, -, -, -, -, h6, h7, -, -⟩ := hwf
  omega

/-- C2: save-then-load round-trip.  For any well-formed, non-empty Column
Model `D`, `save(D)` followed by `load()` on the same adapter returns
`Some(D)` — same rows, same field values, same order — on both the
in-memory Arrow backend and the on-disk Parquet backend. -/
theorem save_load_round_trip (D : OrderSoA) (hwf : D.wf) (hne : 0 < D.len) :
    (∀ st : ArrowState, (arrowSave st D >>= arrowLoad) = .ok (some D)) ∧
    (∀ fs : ParquetFile, (parquetSave fs D >>= parquetLoad) = .ok (some D)) := by
  have hto := to_record_batch_eq D hwf
  have hfrom := from_encBatch D (OrderSoA.wf_status_eq_payment D hwf)
  constructor
  · intro st
    have h1 : arrowSave st D = .ok [encBatch D] := by
      simp [arrowSave, hto]
    rw [h1, exBind_ok]
    simp [arrowLoad, mergeBatches, hfrom]
  · intro fs
    have h1 : parquetSave fs D = .ok (some [encBatch D]) := by
      simp [parquetSave, hto]
    rw [h1, exBind_ok]
    simp [parquetLoad, hfrom]

/-- C10: saving an empty Column Model on the in-memory backend stores one
zero-row batch, so `load()` returns `Some` empty model — distinguishable
from the never-stored state, where `load()` returns `none` — while
`count()` returns `0` and `is_empty()` returns `true`. -/
theorem empty_save_distinguished (st : ArrowState) :
    (arrowSave st OrderSoA.new >>= arrowLoad) = .ok (some OrderSoA.new) ∧
    (arrowSave st OrderSoA.new >>= arrowCount) = .ok 0 ∧
    (arrowSave st OrderSoA.new >>= arrowIsEmpty) = .ok true ∧
    arrowLoad ([] : ArrowState) = .ok none := by
  have hwf : OrderSoA.new.wf := by decide
  have h1 : arrowSave st OrderSoA.new = .ok [encBatch OrderSoA.new] := by
    simp [arrowSave, to_record_batch_eq OrderSoA.new hwf]
  refine ⟨?_, ?_, ?_, rfl⟩
  · rw [h1, exBind_ok]
    simp [arrowLoad, mergeBatches, from_encBatch OrderSoA.new rfl]
  · rw [h1, exBind_ok]
    rfl
  · rw [h1, exBind_ok]
    rfl

theorem decodeOrderEnums_append (s1 p1 s2 p2 : List Nat)
    (hlen : s1.length = p1.length)
    (r1 r2 : List OrderStatus × List PaymentMethod)
    (h1 : decodeOrderEnums s1 p1 = .ok r1)
    (h2 : decodeOrderEnums s2 p2 = .ok r2) :
    decodeOrderEnums (s1 ++ s2) (p1 ++ p2) =
      .ok (r1.1 ++ r2.1, r1.2 ++ r2.2) := by
  induction s1 generalizing p1 r1 with
  | nil =>
      cases p1 with
      | nil =>
          simp only [decodeOrderEnums] at h1
          obtain rfl : ([], []) = r1 := by
            simpa using h1
          simpa using h2
      | cons p ps => simp at hlen
  | cons sc scs ih =>
      cases p1 with
      | nil => simp at hlen
      | cons pc pcs =>
          cases hs : decodeStatus sc with
          | error e => simp [decodeOrderEnums, hs] at h1
          | ok sv =>
              cases hp : decodePayment pc with
              | error e => simp [decodeOrderEnums, hs, hp] at h1
              | ok pv =>
                  cases hr : decodeOrderEnums scs pcs with
                  | error e => simp [decodeOrderEnums, hs, hp, hr] at h1
                  | ok rv =>
                      simp only [decodeOrderEnums, hs, hp, hr, exceptBind_ok,
                        exBind_ok] at h1
                      have ih' := ih pcs (by simpa using hlen) rv hr
                      simp only [List.cons_append, decodeOrderEnums, hs, hp,
                        exceptBind_ok, exBind_ok]
                      rw [show scs.append s2 = scs ++ s2 from rfl,
                        show pcs.append p2 = pcs ++ p2 from rfl, ih']
                      obtain rfl : r1 = (sv :: rv.1, pv :: rv.2) := by
                        cases h1
                        rfl
                      rfl

theorem decodeOrderEnums_lengths (sc pc : List Nat)
    (r : List OrderStatus × List PaymentMethod)
    (h : decodeOrderEnums sc pc = .ok r) :
    r.1.length = sc.length ∧ r.2.length = sc.length := by
  induction sc generalizing pc r with
  | nil =>
      obtain rfl : ([], []) = r := by
        cases pc <;> simpa [decodeOrderEnums] using h
      simp
  | cons c cs ih =>
      cases pc with
      | nil => simp [decodeOrderEnums] at h
      | cons p ps =>
          cases hs : decodeStatus c with
          | error e => simp [decodeOrderEnums, hs] at h
          | ok sv =>
              cases hp : decodePayment p with
              | error e => simp [decodeOrderEnums, hs, hp] at h
              | ok pv =>
                  cases hr : decodeOrderEnums cs ps with
                  | error e => simp [decodeOrderEnums, hs, hp, hr] at h
                  | ok rv =>
                      simp only [decodeOrderEnums, hs, hp, hr, exceptBind_ok,
                        exBind_ok] at h
                      obtain rfl : r = (sv :: rv.1, pv :: rv.2) := by
                        cases h
                        rfl
                      have := ih ps rv hr
                      simp [this.1, this.2]

theorem RecordBatch.sameLen_appendB (a b : RecordBatch) (ha : a.sameLen)
    (hb : b.sameLen) : (a.appendB b).sameLen := by
  obtain ⟨a1, a2, a3, a4, a5, a6, a7, a8, a9⟩ := ha
  obtain ⟨b1, b2, b3, b4, b5, b6, b7, b8, b9⟩ := hb
  simp_all [RecordBatch.appendB, RecordBatch.sameLen]

theorem RecordBatch.sameLen_emptyB : RecordBatch.emptyB.sameLen := by
  simp [RecordBatch.emptyB, RecordBatch.sameLen]

theorem foldl_appendB_sameLen (bs : List RecordBatch) (acc : RecordBatch)
    (hacc : acc.sameLen) (h : ∀ b ∈ bs, b.sameLen) :
    (bs.foldl RecordBatch.appendB acc).sameLen := by
  induction bs generalizing acc with
  | nil => exact hacc
  | cons b rest ih =>
      exact ih (acc.appendB b)
        (RecordBatch.sameLen_appendB _ _ hacc (h b (by simp)))
        (fun x hx => h x (by simp [hx]))

theorem concatBatches_sameLen (bs : List RecordBatch)
    (h : ∀ b ∈ bs, b.sameLen) : (concatBatches bs).sameLen :=
  foldl_appendB_sameLen bs RecordBatch.emptyB RecordBatch.sameLen_emptyB h

theorem emptyB_appendB (b : RecordBatch) : RecordBatch.emptyB.appendB b = b :=
  rfl

theorem concatBatches_snoc (bs : List RecordBatch) (b : RecordBatch) :
    concatBatches (bs ++ [b]) = (concatBatches bs).appendB b := by
  simp [concatBatches, List.foldl_append]

theorem mergeBatches_of_two_le (l : ArrowState) (h : 2 ≤ l.length) :
    mergeBatches l = some (concatBatches l) := by
  match l with
  | [] => simp at h
  | [a] => simp at h
  | a :: b :: rest => rfl

theorem from_appendB (b1 b2 : RecordBatch)
    (hlen : b1.status.length = b1.payment_method.length)
    (d1 d2 : OrderSoA)
    (h1 : OrderSoA.from_record_batch b1 = .ok d1)
    (h2 : OrderSoA.from_record_batch b2 = .ok d2) :
    OrderSoA.from_record_batch (b1.appendB b2) = .ok (d1.append d2) := by
  cases hr1 : decodeOrderEnums b1.status b1.payment_method with
  | error e => simp [OrderSoA.from_record_batch, hr1] at h1
  | ok r1 =>
      cases hr2 : decodeOrderEnums b2.status b2.payment_method with
      | error e => simp [OrderSoA.from_record_batch, hr2] at h2
      | ok r2 =>
          simp only [OrderSoA.from_record_batch, hr1, exceptBind_ok,
            exBind_ok] at h1
          simp only [OrderSoA.from_record_batch, hr2, exceptBind_ok,
            exBind_ok] at h2
          have happ := decodeOrderEnums_append b1.status b1.payment_method
            b2.status b2.payment_method hlen r1 r2 hr1 hr2
          obtain rfl : d1 = ⟨b1.order_id, b1.customer_id, b1.product_id,
              b1.quantity, b1.unit_price, b1.total_amount, r1.1, r1.2,
              b1.order_timestamp, b1.shipping_address_hash⟩ := by
            cases h1
            rfl
          obtain rfl : d2 = ⟨b2.order_id, b2.customer_id, b2.product_id,
              b2.quantity, b2.unit_price, b2.total_amount, r2.1, r2.2,
              b2.order_timestamp, b2.shipping_address_hash⟩ := by
            cases h2
            rfl
          simp only [OrderSoA.from_record_batch, RecordBatch.appendB]
          rw [happ]
          rfl

theorem from_ok_wf (b : RecordBatch) (hb : b.sameLen) (d : OrderSoA)
    (h : OrderSoA.from_record_batch b = .ok d) : d.wf := by
  cases hr : decodeOrderEnums b.status b.payment_method with
  | error e => simp [OrderSoA.from_record_batch, hr] at h
  | ok r =>
      simp only [OrderSoA.from_record_batch, hr, exceptBind_ok,
        exBind_ok] at h
      obtain ⟨hL1, hL2⟩ := decodeOrderEnums_lengths _ _ _ hr
      obtain ⟨s1, s2, s3, s4, s5, s6, s7, s8, s9⟩ := hb
      obtain rfl : d = ⟨b.order_id, b.customer_id, b.product_id, b.quantity,
          b.unit_price, b.total_amount, r.1, r.2, b.order_timestamp,
          b.shipping_address_hash⟩ := by
        cases h
        rfl
      exact ⟨s1, s2, s3, s4, s5, hL1.trans s6, hL2.trans s6, s8, s9⟩

theorem OrderSoA.wf_append (a b : OrderSoA) (ha : a.wf) (hb : b.wf) :
    (a.append b).wf := by
  obtain ⟨a1, a2, a3, a4, a5, a6, a7, a8, a9⟩ := ha
  obtain ⟨b1, b2, b3, b4, b5, b6, b7, b8, b9⟩ := hb
  simp_all [OrderSoA.append, OrderSoA.wf]

theorem OrderSoA.new_append (x : OrderSoA) : OrderSoA.new.append x = x :=
  rfl

theorem OrderSoA.wf_status_payment_encBatch (s : OrderSoA) (hwf : s.wf) :
    (encBatch s).status.length = (encBatch s).payment_method.length := by
  obtain ⟨-, -, -, -, -, h6, h7, -, -⟩ := hwf
  simp [encBatch, h6, h7]

theorem arrowLoad_ok_from_concat (st : ArrowState) (r0 : Option OrderSoA)
    (h : arrowLoad st = .ok r0) :
    OrderSoA.from_record_batch (concatBatches st) = .ok (r0.getD OrderSoA.new) := by
  match st with
  | [] =>
      obtain rfl : r0 = none := by
        simpa [arrowLoad, mergeBatches] using h.symm
      rfl
  | [b] =>
      cases hf : OrderSoA.from_record_batch b with
      | error e => simp [arrowLoad, mergeBatches, hf] at h
      | ok d =>
          obtain rfl : r0 = some d := by
            simpa [arrowLoad, mergeBatches, hf] using h.symm
          rw [show concatBatches [b] = b from rfl]
          exact hf
  | a :: b' :: rest =>
      cases hf : OrderSoA.from_record_batch (concatBatches (a :: b' :: rest)) with
      | error e => simp [arrowLoad, mergeBatches, hf] at h
      | ok d =>
          obtain rfl : r0 = some d := by
            simpa [arrowLoad, mergeBatches, hf] using h.symm
          rfl

/-- Well-formedness of an on-disk dataset: every stored batch passed
`try_new`'s equal-length validation. -/
def ParquetFile.wfF : ParquetFile → Prop
  | none => True
  | some bs => ∀ b ∈ bs, b.sameLen

theorem parquetLoad_some_wf (fs : ParquetFile) (C : OrderSoA)
    (hwfF : ParquetFile.wfF fs) (h : parquetLoad fs = .ok (some C)) :
    C.wf := by
  match fs with
  | none => simp [parquetLoad] at h
  | some [] => simp [parquetLoad] at h
  | some [b] =>
      cases hf : OrderSoA.from_record_batch b with
      | error e => simp [parquetLoad, hf] at h
      | ok d =>
          obtain rfl : C = d := by
            simpa [parquetLoad, hf] using h.symm
          exact from_ok_wf b (hwfF b (by simp)) C hf
  | some (a :: b' :: rest) =>
      cases hf : OrderSoA.from_record_batch (concatBatches (a :: b' :: rest)) with
      | error e => simp [parquetLoad, hf] at h
      | ok d =>
          obtain rfl : C = d := by
            simpa [parquetLoad, hf] using h.symm
          exact from_ok_wf _ (concatBatches_sameLen _ hwfF) C hf

theorem RecordBatch.sameLen_status_payment (b : RecordBatch)
    (h : b.sameLen) : b.status.length = b.payment_method.length := by
  obtain ⟨-, -, -, -, -, h6, h7, -, -⟩ := h
  omega

/-- C6: `append(A)` then `append(B)` then `load()` returns the previously
stored rows followed by `A`'s rows followed by `B`'s rows, in that order —
nothing is removed or reordered — on both the in-memory backend (which adds
batches to the list) and the on-disk backend (which reloads, concatenates
and rewrites).  Starting from an empty adapter (`r0 = none`) the result is
exactly `A ++ B`. -/
theorem append_preserves_order (A B : OrderSoA) (hA : A.wf) (hB : B.wf) :
    (∀ (st : ArrowState) (r0 : Option OrderSoA), (∀ b ∈ st, b.sameLen) →
      arrowLoad st = .ok r0 →
      (arrowAppend st A >>= fun s1 => arrowAppend s1 B >>= arrowLoad) =
        .ok (some (((r0.getD OrderSoA.new).append A).append B))) ∧
    (∀ (fs : ParquetFile) (r0 : Option OrderSoA), ParquetFile.wfF fs →
      parquetLoad fs = .ok r0 →
      (parquetAppend fs A >>= fun f1 => parquetAppend f1 B >>= parquetLoad) =
        .ok (some (((r0.getD OrderSoA.new).append A).append B))) := by
  have htoA := to_record_batch_eq A hA
  have htoB := to_record_batch_eq B hB
  have hfromA := from_encBatch A (OrderSoA.wf_status_eq_payment A hA)
  have hfromB := from_encBatch B (OrderSoA.wf_status_eq_payment B hB)
  constructor
  · intro st r0 hst hl
    have h1 : arrowAppend st A = .ok (st ++ [encBatch A]) := by
      simp [arrowAppend, htoA]
    have h2 : arrowAppend (st ++ [encBatch A]) B =
        .ok (st ++ [encBatch A] ++ [encBatch B]) := by
      simp [arrowAppend, htoB]
    rw [h1, exBind_ok, h2, exBind_ok]
    have hlen2 : 2 ≤ (st ++ [encBatch A] ++ [encBatch B]).length := by
      simp
    have hcsL : (concatBatches st).sameLen := concatBatches_sameLen st hst
    have hcc := arrowLoad_ok_from_concat st r0 hl
    have hfan : OrderSoA.from_record_batch
        ((concatBatches st).appendB (encBatch A)) =
        .ok ((r0.getD OrderSoA.new).append A) :=
      from_appendB _ _ (RecordBatch.sameLen_status_payment _ hcsL) _ _
        hcc hfromA
    have hsL2 : ((concatBatches st).appendB (encBatch A)).sameLen :=
      RecordBatch.sameLen_appendB _ _ hcsL (encBatch_sameLen A hA)
    have hfull : OrderSoA.from_record_batch
        (((concatBatches st).appendB (encBatch A)).appendB (encBatch B)) =
        .ok (((r0.getD OrderSoA.new).append A).append B) :=
      from_appendB _ _ (RecordBatch.sameLen_status_payment _ hsL2) _ _
        hfan hfromB
    have hcat : concatBatches (st ++ [encBatch A] ++ [encBatch B]) =
        ((concatBatches st).appendB (encBatch A)).appendB (encBatch B) := by
      rw [concatBatches_snoc, concatBatches_snoc]
    simp only [arrowLoad, mergeBatches_of_two_le _ hlen2, hcat, hfull,
      exceptBind_ok, exBind_ok]
  · intro fs r0 hwfF hl
    cases r0 with
    | none =>
        have h1 : parquetAppend fs A = .ok (some [encBatch A]) := by
          simp [parquetAppend, hl, htoA]
        have hload1 : parquetLoad (some [encBatch A]) = .ok (some A) := by
          simp [parquetLoad, hfromA]
        have h2 : parquetAppend (some [encBatch A]) B =
            .ok (some [(encBatch A).appendB (encBatch B)]) := by
          simp [parquetAppend, hload1, htoA, htoB]
        rw [h1, exBind_ok, h2, exBind_ok]
        have hfinal : OrderSoA.from_record_batch
            ((encBatch A).appendB (encBatch B)) = .ok (A.append B) :=
          from_appendB _ _ (OrderSoA.wf_status_payment_encBatch A hA) _ _
            hfromA hfromB
        simp [parquetLoad, hfinal, OrderSoA.new_append]
    | some C =>
        have hCwf := parquetLoad_some_wf fs C hwfF hl
        have htoC := to_record_batch_eq C hCwf
        have h1 : parquetAppend fs A =
            .ok (some [(encBatch C).appendB (encBatch A)]) := by
          simp [parquetAppend, hl, htoA, htoC]
        have hload1 : parquetLoad (some [(encBatch C).appendB (encBatch A)]) =
            .ok (some (C.append A)) := by
          have hf := from_appendB _ _
            (OrderSoA.wf_status_payment_encBatch C hCwf) _ _
            (from_encBatch C (OrderSoA.wf_status_eq_payment C hCwf)) hfromA
          simp [parquetLoad, hf]
        have hCAwf := OrderSoA.wf_append C A hCwf hA
        have htoCA := to_record_batch_eq _ hCAwf
        have h2 : parquetAppend (some [(encBatch C).appendB (encBatch A)]) B =
            .ok (some [(encBatch (C.append A)).appendB (encBatch B)]) := by
          simp [parquetAppend, hload1, htoB, htoCA]
        rw [h1, exBind_ok, h2, exBind_ok]
        have hfinal : OrderSoA.from_record_batch
            ((encBatch (C.append A)).appendB (encBatch B)) =
            .ok ((C.append A).append B) :=
          from_appendB _ _
            (OrderSoA.wf_status_payment_encBatch _ hCAwf) _ _
            (from_encBatch _ (OrderSoA.wf_status_eq_payment _ hCAwf)) hfromB
        simp [parquetLoad, hfinal]

/-- C9: enum decode totality.  For each enumeration, codes below the number
of declared variants decode positionally to the variant at that position;
every in-range-of-u8 code at or above the variant count fails with a
`TypeConversion` error (never a silent default); and decode inverts encode. -/
theorem enum_decode_totality :
    (∀ (c : Nat) (h : c < OrderStatus.variants.length),
      OrderStatus.tryFromU8 c = .ok (OrderStatus.variants.get ⟨c, h⟩)) ∧
    (∀ c : Nat, OrderStatus.variants.length ≤ c → c < 256 →
      ∃ m, decodeStatus c = .error (.typeConversion m)) ∧
    (∀ v : OrderStatus, decodeStatus v.toU8 = .ok v) ∧
    (∀ (c : Nat) (h : c < PaymentMethod.variants.length),
      PaymentMethod.tryFromU8 c = .ok (PaymentMethod.variants.get ⟨c, h⟩)) ∧
    (∀ c : Nat, PaymentMethod.variants.length ≤ c → c < 256 →
      ∃ m, decodePayment c = .error (.typeConversion m)) ∧
    (∀ v : PaymentMethod, decodePayment v.toU8 = .ok v) := by
  refine ⟨?_, ?_, decodeStatus_toU8, ?_, ?_, decodePayment_toU8⟩
  · intro c h
    have h4 : c < 4 := by simpa [OrderStatus.variants] using h
    interval_cases c <;> rfl
  · intro c h1 h2
    obtain ⟨n, rfl⟩ : ∃ n, c = n + 4 := by
      have : 4 ≤ c := by simpa [OrderStatus.variants] using h1
      exact ⟨c - 4, by omega⟩
    exact ⟨_, rfl⟩
  · intro c h
    have h3 : c < 3 := by simpa [PaymentMethod.variants] using h
    interval_cases c <;> rfl
  · intro c h1 h2
    obtain ⟨n, rfl⟩ : ∃ n, c = n + 3 := by
      have : 3 ≤ c := by simpa [PaymentMethod.variants] using h1
      exact ⟨c - 3, by omega⟩
    exact ⟨_, rfl⟩

/-- A one-row data set used as concrete prior content. -/
def exOld : OrderSoA :=
  ⟨[1], [10], [100], [2], [⟨10⟩], [⟨20⟩], [.Delivered], [.CreditCard],
   [111], [5]⟩

/-- A different one-row data set used as the content of a new `save`. -/
def exNew : OrderSoA :=
  ⟨[2], [20], [200], [3], [⟨30⟩], [⟨40⟩], [.Pending], [.PayPal],
   [222], [6]⟩

/-- C7 counterexample: the on-disk `save` is `File::create` (truncate) then
write, so with prior content `exOld` on disk, the intermediate state after
the truncation — observable when the write does not complete — holds
neither the old nor the new content: a load there returns nothing, while
the old file loaded `exOld`.  This refutes "either the new content is fully
visible or the old content remains" for the on-disk backend. -/
theorem parquet_save_truncation_loses_old :
    exNew.to_record_batch = .ok (encBatch exNew) ∧
    (some [] : ParquetFile) ∈ parquetSaveTrace (encBatch exNew) ∧
    parquetLoad (some [encBatch exOld]) = .ok (some exOld) ∧
    parquetLoad (some ([] : List RecordBatch)) = .ok none ∧
    (Except.ok (none : Option OrderSoA) :
      Except PersistenceError (Option OrderSoA)) ≠ .ok (some exOld) ∧
    (Except.ok (none : Option OrderSoA) :
      Except PersistenceError (Option OrderSoA)) ≠ .ok (some exNew) := by
  refine ⟨?_, ?_, ?_, rfl, ?_, ?_⟩
  · exact to_record_batch_eq exNew ⟨rfl, rfl, rfl, rfl, rfl, rfl, rfl, rfl, rfl⟩
  · simp [parquetSaveTrace]
  · simp [parquetLoad, from_encBatch exOld rfl]
  · exact fun h => Option.noConfusion (Except.ok.inj h)
  · exact fun h => Option.noConfusion (Except.ok.inj h)

/-- C7 amended: the in-memory backend's `save` is atomic — it either
replaces the stored state with exactly the one new batch, or fails during
serialization before touching the stored state — and a completed on-disk
`save` leaves exactly the new content (the final state of its write
sequence); but an on-disk save interrupted between `File::create` and the
completed write leaves a truncated file, losing the prior content without
making the new content visible. -/
theorem save_atomicity_amended :
    (∀ (st : ArrowState) (D : OrderSoA) (b : RecordBatch),
      D.to_record_batch = .ok b → arrowSave st D = .ok [b]) ∧
    (∀ (st : ArrowState) (D : OrderSoA) (e : PersistenceError),
      D.to_record_batch = .error e → arrowSave st D = .error e) ∧
    (∀ (fs : ParquetFile) (D : OrderSoA) (b : RecordBatch),
      D.to_record_batch = .ok b →
      parquetSave fs D = .ok (some [b]) ∧
      (parquetSaveTrace b).getLast? = some (some [b])) := by
  refine ⟨?_, ?_, ?_⟩
  · intro st D b h
    simp [arrowSave, h]
  · intro st D e h
    simp [arrowSave, h]
  · intro fs D b h
    exact ⟨by simp [parquetSave, h], rfl⟩

/-!
Concrete instantiation data: a one-field record shape (`Fin 1`, `Nat`) and
small inputs at which the hypothesis-bearing theorems are evaluated.
-/

def wRowA : Row 0 (fun _ => Nat) := fun _ => 5

def wRowB : Row 0 (fun _ => Nat) := fun _ => 7

def wRow42 : Row 0 (fun _ => Nat) := fun _ => 42

def wHash : Nat → Nat := fun n => n

def wSoA0 : SoA 0 (fun _ => Nat) := (SoA.new 0 (fun _ => Nat)).pushMany [wRowA]

def wHeap : ArcHeap (SoA 0 (fun _ => Nat)) := ⟨[(wSoA0, 1)]⟩

def wShardStore : ShardedStore 0 (fun _ => Nat) :=
  ShardedStore.with_shards 0 (fun _ => Nat) 4 0

/-- Witness for C5 at a two-row model and index 1. -/
theorem soa_view_round_trip_witness :
    1 < ([wRowA, wRowB] : List (Row 0 (fun _ => Nat))).length ∧
    (((SoA.new 0 (fun _ => Nat)).pushMany [wRowA, wRowB]).view 1 =
      some (([wRowA, wRowB] : List (Row 0 (fun _ => Nat))).get ⟨1, by decide⟩) ∧
    (((SoA.new 0 (fun _ => Nat)).pushMany
        (([wRowA, wRowB] : List (Row 0 (fun _ => Nat))).take 1)).push
      (([wRowA, wRowB] : List (Row 0 (fun _ => Nat))).get ⟨1, by decide⟩)).2 = 1) :=
  ⟨by decide, soa_view_round_trip 0 (fun _ => Nat) [wRowA, wRowB] 1 (by decide)⟩

/-- Witness for C3 at a one-cell heap and a single `add` through the clone. -/
theorem store_cow_isolation_witness :
    wHeap.cells.get? 0 = some (wSoA0, 1) ∧ 1 ≤ 1 ∧
    (storeKernel (storeRun (wHeap.clone 0, 0) [StoreOp.add wRowB]).1 0 =
        some wSoA0 ∧
      (∀ (g : ArcHeap (SoA 0 (fun _ => Nat))) (q m : Nat)
        (s0 : SoA 0 (fun _ => Nat)) (v : Row 0 (fun _ => Nat)),
        g.cells.get? q = some (s0, m) →
        (storeAdd g q v).2.2 = (s0.push v).2 ∧
        (storeAdd g q v).1.value? (storeAdd g q v).2.1 = some (s0.push v).1 ∧
        (s0.push v).2 = (s0.push v).1.len - 1 ∧
        (s0.push v).1.len = s0.len + 1)) :=
  ⟨rfl, by decide,
    store_cow_isolation 0 (fun _ => Nat) wHeap 0 wSoA0 1 rfl (by decide)
      [StoreOp.add wRowB]⟩

/-- Witness for C4 at a 4-shard store and two inserts keyed 42. -/
theorem sharded_add_routing_witness :
    0 < wShardStore.shard_count ∧
    (∃ s1 row,
      wShardStore.add 0 wHash wRow42 =
        some (s1, shard_idx_from_key wHash (wRow42 0) wShardStore.shard_count,
          row) ∧
      s1.shard_count = wShardStore.shard_count ∧
      (∀ j, j ≠ shard_idx_from_key wHash (wRow42 0) wShardStore.shard_count →
        s1.shard j = wShardStore.shard j) ∧
      (∃ sh, wShardStore.shard
          (shard_idx_from_key wHash (wRow42 0) wShardStore.shard_count) =
          some sh ∧
        s1.shard
          (shard_idx_from_key wHash (wRow42 0) wShardStore.shard_count) =
          some (sh.push wRow42).1 ∧
        row = (sh.push wRow42).2 ∧ row = (sh.push wRow42).1.len - 1) ∧
      (wRow42 0 = wRow42 0 →
        ∃ s2 row2, s1.add 0 wHash wRow42 =
          some (s2, shard_idx_from_key wHash (wRow42 0) wShardStore.shard_count,
            row2))) :=
  ⟨by decide,
    sharded_add_routing 0 (fun _ => Nat) 0 wHash wShardStore wRow42 wRow42
      (by decide)⟩

/-- Witness for C8 at a one-row model with index 5 and a 4-shard store with
index 9. -/
theorem bounds_checked_indexing_witness :
    wSoA0.wf ∧
    (((wSoA0.view 5).isSome ↔ 5 < wSoA0.len) ∧
     ((wSoA0.view_mut 5).isSome ↔ 5 < wSoA0.len) ∧
     (wSoA0.len ≤ 5 → wSoA0.view 5 = none ∧ wSoA0.view_mut 5 = none) ∧
     ((wShardStore.shard 9).isSome ↔ 9 < wShardStore.shard_count) ∧
     ((wShardStore.shard_mut 9).isSome ↔ 9 < wShardStore.shard_count) ∧
     (wShardStore.shard_count ≤ 9 →
       wShardStore.shard 9 = none ∧ wShardStore.shard_mut 9 = none)) :=
  ⟨fun _ => rfl,
    bounds_checked_indexing 0 (fun _ => Nat) wSoA0 (fun _ => rfl) 5
      wShardStore 9⟩

/-- Witness for C2 at the one-row data set `exNew`. -/
theorem save_load_round_trip_witness :
    exNew.wf ∧ 0 < exNew.len ∧
    ((∀ st : ArrowState, (arrowSave st exNew >>= arrowLoad) = .ok (some exNew)) ∧
     (∀ fs : ParquetFile, (parquetSave fs exNew >>= parquetLoad) =
       .ok (some exNew))) :=
  ⟨⟨rfl, rfl, rfl, rfl, rfl, rfl, rfl, rfl, rfl⟩, by decide,
    save_load_round_trip exNew ⟨rfl, rfl, rfl, rfl, rfl, rfl, rfl, rfl, rfl⟩
      (by decide)⟩

/-- Witness for C6 at the one-row data sets `exOld` and `exNew`. -/
theorem append_preserves_order_witness :
    exOld.wf ∧ exNew.wf ∧
    ((∀ (st : ArrowState) (r0 : Option OrderSoA), (∀ b ∈ st, b.sameLen) →
      arrowLoad st = .ok r0 →
      (arrowAppend st exOld >>= fun s1 => arrowAppend s1 exNew >>= arrowLoad) =
        .ok (some (((r0.getD OrderSoA.new).append exOld).append exNew))) ∧
     (∀ (fs : ParquetFile) (r0 : Option OrderSoA), ParquetFile.wfF fs →
      parquetLoad fs = .ok r0 →
      (parquetAppend fs exOld >>= fun f1 =>
        parquetAppend f1 exNew >>= parquetLoad) =
        .ok (some (((r0.getD OrderSoA.new).append exOld).append exNew)))) :=
  ⟨⟨rfl, rfl, rfl, rfl, rfl, rfl, rfl, rfl, rfl⟩,
   ⟨rfl, rfl, rfl, rfl, rfl, rfl, rfl, rfl, rfl⟩,
   append_preserves_order exOld exNew
     ⟨rfl, rfl, rfl, rfl, rfl, rfl, rfl, rfl, rfl⟩
     ⟨rfl, rfl, rfl, rfl, rfl, rfl, rfl, rfl, rfl⟩⟩

end Faun
